import Mathlib

/-!
Verification development for the residual-statistics kernel of the scran
repository (src/src/compute_residual_stats.cpp).

The kernel computes, for every row of an expression matrix, the mean of the
(optionally log-normalized) row values and the variance of the residuals left
after projecting out a fitted linear model through a pre-computed QR
factorization.

Modelling conventions:
* C++ doubles are modelled by the real numbers `ℝ`.
* The reusable row buffer `incoming` is an explicit `List ℝ` threaded through
  the row loop; `get_row` overwriting the first `ncells` positions of the
  buffer is modelled by `row ++ buf.drop row.length`.
* The `scuttle::linear_model_fit` fitter is an external collaborator whose
  sources are not part of this repository; it is modelled abstractly by the
  structure `linear_model_fit` (a coefficient count, the factorization's cell
  count, and the orthogonal-transform map `multiply`), and its dimension
  validation is modelled from the spec.
* An out-of-bounds iterator dereference (undefined behaviour in C++) is
  modelled by `Option.none` in the faithful loop translation `lognorm_loop`.
-/

open scoped BigOperators

/-- The pre-computed QR fitter wrapped by `scuttle::linear_model_fit`.
Modelled from the spec: the scuttle library is an external collaborator (its
code is not under src/), so the fitter is abstracted to its observable
interface: `nrow` is the factorization's cell count (the row count of `qr`),
`ncoefs` is `get_ncoefs()`, and `multiply` is the in-place orthogonal
transform applied to the row buffer by `fitter.multiply(iIt)`. -/
structure linear_model_fit where
  nrow : ℕ
  ncoefs : ℕ
  multiply : List ℝ → List ℝ

/-- The input matrix `inmat`, which beachmat exposes in one of two backing
encodings: stored-as-integer (`beachmat::integer_matrix`) or
stored-as-floating-point (`beachmat::numeric_matrix`).  Each constructor
carries the declared column count `ncells` and the list of rows. -/
inductive EMatrix where
  | integer_matrix : ℕ → List (List ℤ) → EMatrix
  | numeric_matrix : ℕ → List (List ℝ) → EMatrix

/-- The numeric view of the matrix rows, as produced by `get_row` into a
double buffer: integer-backed values are upcast to floating point, numeric
values are copied directly. -/
noncomputable def EMatrix.get_rows : EMatrix → List (List ℝ)
  | EMatrix.integer_matrix _ rows => rows.map (fun r => r.map (fun z => (z : ℝ)))
  | EMatrix.numeric_matrix _ rows => rows

/-- The declared column count of the matrix (`emat->get_ncol()`). -/
def EMatrix.get_ncol : EMatrix → ℕ
  | EMatrix.integer_matrix ncol _ => ncol
  | EMatrix.numeric_matrix ncol _ => ncol

/-- The body of `none::operator()` is empty: the buffer is left unchanged
(lines 81-84 of compute_residual_stats.cpp). -/
def none_apply (buf : List ℝ) : List ℝ := buf

/-- Faithful translation of the loop in `lognorm::operator()` (lines 51-58):
`while (start!=end) { *start=std::log(*start/(*sfIt) + ps)/M_LN2; ++start; ++sfIt; }`.
The buffer is traversed position by position while `sfIt` walks the size
factor vector with no bounds check; dereferencing `sfIt` past the end of `sf`
is undefined behaviour in C++ and is modelled by `Option.none`.  The index
`j` is the current offset of `sfIt` from `sf.begin()`. -/
noncomputable def lognorm_loop (sf : List ℝ) (ps : ℝ) : List ℝ → ℕ → Option (List ℝ)
  | [], _ => some []
  | x :: rest, j =>
    match sf.get? j with
    | Option.none => Option.none
    | some s =>
      match lognorm_loop sf ps rest (j + 1) with
      | Option.none => Option.none
      | some rest2 => some ((Real.log (x / s + ps) / Real.log 2) :: rest2)

/-- The `lognorm` transformer as passed to the driver: a total wrapper of
`lognorm_loop` starting at offset 0.  Under the documented precondition that
`sf` has one entry per cell the loop never reads out of range; on the
undefined-behaviour branch the wrapper returns an arbitrary value (the
untransformed buffer). -/
noncomputable def lognorm_trans (sf : List ℝ) (ps : ℝ) (buf : List ℝ) : List ℝ :=
  (lognorm_loop sf ps buf 0).getD buf

/-- One driver iteration's mean: the sum of the transformed buffer divided by
`ncells` (line 30: `(*curmean)=std::accumulate(iIt, iEnd, 0.0)/ncells;`). -/
noncomputable def rowMean (ncells : ℕ) (trans : List ℝ → List ℝ) (row : List ℝ) : ℝ :=
  (trans row).sum / (ncells : ℝ)

/-- One driver iteration's variance: the buffer is overwritten by
`fitter.multiply`, the entries from position `ncoefs` onwards are squared and
accumulated, and the total is divided by `ncells - ncoefs`
(lines 31-39 of compute_residual_stats.cpp). -/
noncomputable def rowVar (ncells ncoefs : ℕ) (mult trans : List ℝ → List ℝ) (row : List ℝ) : ℝ :=
  (((mult (trans row)).drop ncoefs).map (fun x => x * x)).sum / ((ncells - ncoefs : ℕ) : ℝ)

/-- The per-row loop of `compute_residual_stats` (lines 20-40), with the
reusable scratch buffer `incoming` threaded explicitly.  Each iteration:
`get_row` overwrites the first `row.length` buffer positions (`row ++
buf.drop row.length`), the transformer is applied in place, the mean of the
transformed values is recorded, `fitter.multiply` overwrites the buffer with
its orthogonal image, and the squares of the trailing `ncells - ncoefs`
entries are accumulated (starting from the zero-initialized output slot) and
normalized.  The projected buffer is the scratch state for the next row. -/
noncomputable def stats_loop (ncells ncoefs : ℕ) (mult trans : List ℝ → List ℝ) :
    List (List ℝ) → List ℝ → List ℝ × List ℝ
  | [], _ => ([], [])
  | row :: rest, buf =>
    let buf1 := trans (row ++ buf.drop row.length)
    let mean := buf1.sum / (ncells : ℝ)
    let buf2 := mult buf1
    let v := ((buf2.drop ncoefs).map (fun x => x * x)).sum / ((ncells - ncoefs : ℕ) : ℝ)
    let rest2 := stats_loop ncells ncoefs mult trans rest buf2
    (mean :: rest2.1, v :: rest2.2)

/-- The templated driver `compute_residual_stats` (lines 6-43), specialised to
a row list already decoded by the matrix encoding chosen at the call entry.
The fitter is constructed from `(qr, qraux)` before the row loop (line 12);
its dimension validation lives in the external scuttle sources and is
modelled from the spec: a mismatch between the factorization's cell count and
the matrix's column count, or `ncoefs > ncells`, is fatal, detected once
before the per-row loop, and aborts the whole call with no partial output.
On success the outputs are returned as `(means, variances)`, in that order
(line 42: `Rcpp::List::create(outmean, outvar)`); the scratch buffer starts
zero-initialized (`Rcpp::NumericVector incoming(ncells)`). -/
noncomputable def compute_residual_stats (fit : linear_model_fit) (ncells : ℕ)
    (rows : List (List ℝ)) (trans : List ℝ → List ℝ) : Except String (List ℝ × List ℝ) :=
  if fit.nrow = ncells ∧ fit.ncoefs ≤ ncells then
    Except.ok (stats_loop ncells fit.ncoefs fit.multiply trans rows (List.replicate ncells 0))
  else
    Except.error "dimension mismatch"

/-- Entry point `compute_residual_stats_lognorm` (lines 64-75): the backing
encoding is inspected once at call entry (`beachmat::find_sexp_type`) and the
shared driver is instantiated with the matching matrix class and the
`lognorm` transformer built from `sf` and `pseudo`. -/
noncomputable def compute_residual_stats_lognorm (fit : linear_model_fit) (inmat : EMatrix)
    (sf : List ℝ) (pseudo : ℝ) : Except String (List ℝ × List ℝ) :=
  match inmat with
  | EMatrix.integer_matrix ncol rows =>
    compute_residual_stats fit ncol (rows.map (fun r => r.map (fun z => (z : ℝ))))
      (lognorm_trans sf pseudo)
  | EMatrix.numeric_matrix ncol rows =>
    compute_residual_stats fit ncol rows (lognorm_trans sf pseudo)

/-- Entry point `compute_residual_stats_none` (lines 86-95): same dispatch,
with the `none` transformer. -/
noncomputable def compute_residual_stats_none (fit : linear_model_fit) (inmat : EMatrix) :
    Except String (List ℝ × List ℝ) :=
  match inmat with
  | EMatrix.integer_matrix ncol rows =>
    compute_residual_stats fit ncol (rows.map (fun r => r.map (fun z => (z : ℝ)))) none_apply
  | EMatrix.numeric_matrix ncol rows =>
    compute_residual_stats fit ncol rows none_apply

/-- The sum of a mapped list written as a `Finset.range` sum over positions. -/
lemma list_map_sum_eq (f : ℝ → ℝ) :
    ∀ l : List ℝ, (l.map f).sum = ∑ j ∈ Finset.range l.length, f (l.getD j 0)
  | [] => by simp
  | a :: l => by
    rw [List.map_cons, List.sum_cons, list_map_sum_eq f l, List.length_cons,
      Finset.sum_range_succ']
    simp [add_comm]

/-- Reading the dropped list by position reads the original list shifted. -/
lemma getD_drop (l : List ℝ) (n j : ℕ) : (l.drop n).getD j 0 = l.getD (n + j) 0 := by
  simp [List.getD_eq_getElem?_getD, List.getElem?_drop]

/-- The accumulated sum of squares over the trailing segment of a buffer,
expressed as a sum over the positions `n ≤ j < l.length`. -/
lemma sum_sq_drop (l : List ℝ) (n : ℕ) :
    ((l.drop n).map (fun x => x * x)).sum = ∑ j ∈ Finset.Ico n l.length, l.getD j 0 ^ 2 := by
  rw [list_map_sum_eq, List.length_drop, Finset.sum_Ico_eq_sum_range]
  refine Finset.sum_congr rfl fun j _ => ?_
  rw [getD_drop, pow_two]

/-- Master characterization of the row loop: when every matrix row has length
`ncells`, the transformer and the fitter preserve the buffer length, and the
scratch buffer has length `ncells`, each iteration fully overwrites the
buffer, so the loop computes `rowMean` and `rowVar` of each row
independently of the incoming scratch state. -/
lemma stats_loop_eq (ncells ncoefs : ℕ) (mult trans : List ℝ → List ℝ)
    (hm : ∀ b, (mult b).length = b.length) (ht : ∀ b, (trans b).length = b.length) :
    ∀ (rows : List (List ℝ)) (buf : List ℝ), (∀ r ∈ rows, r.length = ncells) →
      buf.length = ncells →
      stats_loop ncells ncoefs mult trans rows buf =
        (rows.map (rowMean ncells trans), rows.map (rowVar ncells ncoefs mult trans)) := by
  intro rows
  induction rows with
  | nil => intro buf _ _; simp [stats_loop]
  | cons row rest ih =>
    intro buf hr hb
    have h1 : row.length = ncells := hr row (List.mem_cons_self row rest)
    have hdrop : buf.drop row.length = [] := by
      rw [List.drop_eq_nil_iff]
      omega
    have hrest : ∀ r ∈ rest, r.length = ncells := fun r h => hr r (List.mem_cons_of_mem _ h)
    have hb2 : (mult (trans (row ++ buf.drop row.length))).length = ncells := by
      rw [hm, ht, hdrop, List.append_nil, h1]
    simp only [stats_loop]
    rw [ih _ hrest hb2]
    simp [rowMean, rowVar, hdrop]

/-- Termination behaviour of the size-factor reads: starting at offset `j`,
the `lognorm` loop stays in bounds exactly when the size-factor vector covers
positions `j` to `j + buf.length - 1` (or the buffer is empty, in which case
nothing is read). -/
lemma lognorm_loop_isSome_aux (sf : List ℝ) (ps : ℝ) :
    ∀ (buf : List ℝ) (j : ℕ),
      (lognorm_loop sf ps buf j).isSome ↔ (buf = [] ∨ j + buf.length ≤ sf.length) := by
  intro buf
  induction buf with
  | nil => intro j; simp [lognorm_loop]
  | cons x rest ih =>
    intro j
    simp only [lognorm_loop]
    cases hg : sf.get? j with
    | none =>
      rw [List.get?_eq_none] at hg
      simp only [Option.isSome_none, List.length_cons]
      constructor
      · intro h; exact absurd h (by simp)
      · intro h
        rcases h with h | h
        · exact absurd h (by simp)
        · omega
    | some s =>
      have hjlt : j < sf.length := by
        by_contra hc
        push_neg at hc
        rw [List.get?_eq_none.2 hc] at hg
        exact Option.noConfusion hg
      cases hr : lognorm_loop sf ps rest (j + 1) with
      | none =>
        have := (ih (j + 1)).not
        rw [hr] at this
        simp only [Option.isSome_none, Bool.false_eq_true, not_false_iff, true_iff] at this
        push_neg at this
        obtain ⟨hne, hlen⟩ := this
        simp only [Option.isSome_none, Bool.false_eq_true, List.length_cons, false_iff]
        intro h
        rcases h with h | h
        · exact absurd h (by simp)
        · omega
      | some rest2 =>
        have := (ih (j + 1))
        rw [hr] at this
        simp only [Option.isSome_some, true_iff] at this
        simp only [Option.isSome_some, List.length_cons, true_iff]
        right
        rcases this with h | h
        · subst h; simpa using hjlt
        · omega

/-- When the size-factor reads stay in bounds, the `lognorm` loop rewrites
each buffer entry `x` at offset `k` to `log(x / sf[j+k] + ps) / log 2`. -/
lemma lognorm_loop_eq (sf : List ℝ) (ps : ℝ) :
    ∀ (buf : List ℝ) (j : ℕ), j + buf.length ≤ sf.length →
      lognorm_loop sf ps buf j =
        some ((List.range buf.length).map
          (fun k => Real.log (buf.getD k 0 / sf.getD (j + k) 0 + ps) / Real.log 2)) := by
  intro buf
  induction buf with
  | nil => intro j _; simp [lognorm_loop]
  | cons x rest ih =>
    intro j hj
    have hjlt : j < sf.length := by
      simp only [List.length_cons] at hj
      omega
    have hg : sf.get? j = some (sf.getD j 0) := by
      rw [List.getD_eq_getElem?_getD, List.getElem?_eq_getElem hjlt]
      rw [List.get?_eq_getElem?, List.getElem?_eq_getElem hjlt]
      rfl
    have hj2 : j + 1 + rest.length ≤ sf.length := by
      simp only [List.length_cons] at hj
      omega
    simp only [lognorm_loop, hg]
    rw [ih (j + 1) hj2]
    refine congrArg some ?_
    rw [List.length_cons, List.range_succ_eq_map, List.map_cons, List.map_map]
    simp only [List.getD_cons_zero, Nat.add_zero]
    refine congrArg₂ List.cons rfl ?_
    refine List.map_congr_left fun k _ => ?_
    have harith : j + (k + 1) = j + 1 + k := by omega
    simp [Function.comp, List.getD_cons_succ, harith]

/-- A successful `lognorm` pass writes exactly one output per buffer entry:
the buffer length is unchanged. -/
lemma lognorm_loop_length (sf : List ℝ) (ps : ℝ) :
    ∀ (buf : List ℝ) (j : ℕ) (out : List ℝ),
      lognorm_loop sf ps buf j = some out → out.length = buf.length := by
  intro buf
  induction buf with
  | nil =>
    intro j out h
    simp only [lognorm_loop, Option.some_inj] at h
    simp [← h]
  | cons x rest ih =>
    intro j out h
    simp only [lognorm_loop] at h
    cases hg : sf.get? j with
    | none => rw [hg] at h; exact Option.noConfusion h
    | some s =>
      rw [hg] at h
      cases hr : lognorm_loop sf ps rest (j + 1) with
      | none => rw [hr] at h; exact Option.noConfusion h
      | some rest2 =>
        rw [hr] at h
        rw [Option.some_inj] at h
        rw [← h, List.length_cons, List.length_cons, ih (j + 1) rest2 hr]

/-- Positional read of a list with a default, under the in-bounds condition. -/
lemma getD_of_lt {α : Type} (l : List α) (d : α) (i : ℕ) (h : i < l.length) :
    l.getD i d = l[i] := by
  rw [List.getD_eq_getElem?_getD, List.getElem?_eq_getElem h]
  rfl

/-- C1: For every row `i` with `ncoefs < ncells`, after the transform and the
projector have been applied to the row buffer, `variance[i]` equals the sum of
squares of the buffer entries at positions `ncoefs` through `ncells - 1` (the
residual segment only; the first `ncoefs` entries are excluded) divided by
`ncells - ncoefs`. -/
theorem C1_residual_variance (fit : linear_model_fit) (ncells : ℕ)
    (rows : List (List ℝ)) (trans : List ℝ → List ℝ) (ms vs : List ℝ) (i : ℕ)
    (hm : ∀ b, (fit.multiply b).length = b.length)
    (ht : ∀ b, (trans b).length = b.length)
    (hr : ∀ r ∈ rows, r.length = ncells)
    (hi : i < rows.length)
    (hlt : fit.ncoefs < ncells)
    (hout : compute_residual_stats fit ncells rows trans = Except.ok (ms, vs)) :
    vs.getD i 0 =
      (∑ j ∈ Finset.Ico fit.ncoefs ncells,
        (fit.multiply (trans (rows.getD i []))).getD j 0 ^ 2) /
        ((ncells - fit.ncoefs : ℕ) : ℝ) := by
  rw [compute_residual_stats] at hout
  by_cases hc : fit.nrow = ncells ∧ fit.ncoefs ≤ ncells
  · rw [if_pos hc,
      stats_loop_eq ncells fit.ncoefs fit.multiply trans hm ht rows _ hr (by simp)] at hout
    rw [Except.ok.injEq, Prod.mk.injEq] at hout
    obtain ⟨hms, hvs⟩ := hout
    rw [← hvs, getD_of_lt _ _ _ (by simpa using hi), List.getElem_map,
      getD_of_lt _ _ _ hi]
    have hmem : rows[i] ∈ rows := List.getElem_mem hi
    have hlen : (fit.multiply (trans rows[i])).length = ncells := by
      rw [hm, ht, hr _ hmem]
    rw [rowVar, sum_sq_drop, hlen]
  · rw [if_neg hc] at hout
    exact absurd hout (by simp)

/-- C2: For every row `i`, `mean[i]` equals the sum of the row buffer entries
divided by `ncells`, computed on the transformed values (after the transform
has been applied in place and before the projector overwrites the buffer):
the right-hand side mentions the transformer but not `fit.multiply`. -/
theorem C2_transformed_mean (fit : linear_model_fit) (ncells : ℕ)
    (rows : List (List ℝ)) (trans : List ℝ → List ℝ) (ms vs : List ℝ) (i : ℕ)
    (hm : ∀ b, (fit.multiply b).length = b.length)
    (ht : ∀ b, (trans b).length = b.length)
    (hr : ∀ r ∈ rows, r.length = ncells)
    (hi : i < rows.length)
    (hout : compute_residual_stats fit ncells rows trans = Except.ok (ms, vs)) :
    ms.getD i 0 = (trans (rows.getD i [])).sum / (ncells : ℝ) := by
  rw [compute_residual_stats] at hout
  by_cases hc : fit.nrow = ncells ∧ fit.ncoefs ≤ ncells
  · rw [if_pos hc,
      stats_loop_eq ncells fit.ncoefs fit.multiply trans hm ht rows _ hr (by simp)] at hout
    rw [Except.ok.injEq, Prod.mk.injEq] at hout
    obtain ⟨hms, hvs⟩ := hout
    rw [← hms, getD_of_lt _ _ _ (by simpa using hi), List.getElem_map,
      getD_of_lt _ _ _ hi]
    rfl
  · rw [if_neg hc] at hout
    exact absurd hout (by simp)

/-- C9: Both entry points return exactly two numeric sequences, means first
and variances second, each of length `ngenes` (the number of rows), with
entry `i` the per-row statistic of row `i` (row order preserved), and no
further transformation after the sweep. -/
theorem C9_output_shape (fit : linear_model_fit) (ncells : ℕ)
    (rows : List (List ℝ)) (trans : List ℝ → List ℝ)
    (hm : ∀ b, (fit.multiply b).length = b.length)
    (ht : ∀ b, (trans b).length = b.length)
    (hr : ∀ r ∈ rows, r.length = ncells)
    (hdim : fit.nrow = ncells ∧ fit.ncoefs ≤ ncells) :
    compute_residual_stats fit ncells rows trans =
      Except.ok (rows.map (rowMean ncells trans),
        rows.map (rowVar ncells fit.ncoefs fit.multiply trans)) ∧
    (rows.map (rowMean ncells trans)).length = rows.length ∧
    (rows.map (rowVar ncells fit.ncoefs fit.multiply trans)).length = rows.length := by
  refine ⟨?_, by simp, by simp⟩
  rw [compute_residual_stats, if_pos hdim,
    stats_loop_eq ncells fit.ncoefs fit.multiply trans hm ht rows _ hr (by simp)]

/-- C6: The computation is a deterministic function of its inputs with no
hidden mutable state: the only shared mutable resource, the reusable scratch
buffer, does not influence the output, so two invocations with identical
arguments (whatever scratch state they start from) yield identical
`(means, variances)` outputs. -/
theorem C6_deterministic (ncells ncoefs : ℕ) (mult trans : List ℝ → List ℝ)
    (rows : List (List ℝ)) (buf0 buf1 : List ℝ)
    (hm : ∀ b, (mult b).length = b.length)
    (ht : ∀ b, (trans b).length = b.length)
    (hr : ∀ r ∈ rows, r.length = ncells)
    (h0 : buf0.length = ncells) (h1 : buf1.length = ncells) :
    stats_loop ncells ncoefs mult trans rows buf0 =
      stats_loop ncells ncoefs mult trans rows buf1 := by
  rw [stats_loop_eq ncells ncoefs mult trans hm ht rows buf0 hr h0,
    stats_loop_eq ncells ncoefs mult trans hm ht rows buf1 hr h1]

/-- C7: If the factorization's cell count disagrees with the matrix's column
count `ncells`, or `ncoefs > ncells`, the call fails fatally with the
dimension-mismatch error, independently of the row data (the check runs once
before the per-row loop), and no partial output is returned. -/
theorem C7_dimension_mismatch (fit : linear_model_fit) (ncells : ℕ)
    (rows : List (List ℝ)) (trans : List ℝ → List ℝ)
    (h : fit.nrow ≠ ncells ∨ ncells < fit.ncoefs) :
    compute_residual_stats fit ncells rows trans = Except.error "dimension mismatch" := by
  rw [compute_residual_stats, if_neg]
  intro hc
  rcases h with h | h
  · exact h hc.1
  · omega

/-- C3 (divergence witness): with a fully saturated model, `ncells = ncoefs
= 1`, on the 1-by-1 matrix `[[2]]` with the identity transform the call does
not fail: it returns `Except.ok`, reaching `v /= ncells - ncoefs` with a zero
divisor and no guard or error path (in this real-valued model the unguarded
division yields the junk value `0 / 0 = 0`; the C++ double division yields
NaN, equally silently). -/
theorem C3_unguarded_zero_dof :
    compute_residual_stats ⟨1, 1, fun b => b⟩ 1 [[(2 : ℝ)]] (fun b => b) =
      Except.ok ([2], [0]) := by
  rw [compute_residual_stats, if_pos ⟨rfl, le_refl 1⟩]
  simp [stats_loop]

/-- C5: For two input matrices holding the same numeric values, one in the
integer-backed encoding and one in the floating-point-backed encoding, both
entry points return equal `(means, variances)` outputs; the encoding is
dispatched once at call entry (the single `match` on the constructor, outside
the row loop). -/
theorem C5_encoding_equivalence (fit : linear_model_fit) (ncol : ℕ)
    (irows : List (List ℤ)) (sf : List ℝ) (pseudo : ℝ) :
    compute_residual_stats_lognorm fit (EMatrix.integer_matrix ncol irows) sf pseudo =
      compute_residual_stats_lognorm fit
        (EMatrix.numeric_matrix ncol (irows.map (fun r => r.map (fun z => (z : ℝ))))) sf pseudo ∧
    compute_residual_stats_none fit (EMatrix.integer_matrix ncol irows) =
      compute_residual_stats_none fit
        (EMatrix.numeric_matrix ncol (irows.map (fun r => r.map (fun z => (z : ℝ))))) :=
  ⟨rfl, rfl⟩

/-- C8: The identity transform is a no-op (the buffer passes through
unchanged), and the log-normalize transform rewrites the buffer in place with
its length unchanged; in this functional model both transforms are maps of
the buffer alone, so neither touches any other state. -/
theorem C8_transform_frame :
    (∀ buf : List ℝ, none_apply buf = buf) ∧
    (∀ (sf : List ℝ) (ps : ℝ) (buf out : List ℝ),
      lognorm_loop sf ps buf 0 = some out → out.length = buf.length) :=
  ⟨fun _ => rfl, fun sf ps buf out h => lognorm_loop_length sf ps buf 0 out h⟩

/-- C10: The `lognorm` transform reads `sizeFactors[j]` for every buffer
position `j` with no bounds check and no validation of the entries: its
per-cell reads all stay in range exactly when the size-factor vector is at
least as long as the buffer, whatever the values of the entries and of the
pseudocount. -/
theorem C10_sizefactor_bounds (sf : List ℝ) (ps : ℝ) (buf : List ℝ) :
    (lognorm_loop sf ps buf 0).isSome = true ↔ buf.length ≤ sf.length := by
  rw [lognorm_loop_isSome_aux]
  constructor
  · intro h
    rcases h with h | h
    · simp [h]
    · omega
  · intro h
    right
    omega

/-- On a row of `m` copies of `x` with at least `m` uniform size factors `s`,
the `lognorm` loop succeeds and produces `m` copies of
`log(x / s + p) / log 2`. -/
lemma lognorm_loop_replicate (s p x : ℝ) :
    ∀ (m j n : ℕ), j + m ≤ n →
      lognorm_loop (List.replicate n s) p (List.replicate m x) j =
        some (List.replicate m (Real.log (x / s + p) / Real.log 2)) := by
  intro m
  induction m with
  | zero => intro j n _; simp [lognorm_loop]
  | succ m ih =>
    intro j n hj
    have hjlt : j < n := by omega
    have hg : (List.replicate n s).get? j = some s := by
      rw [List.get?_eq_getElem?, List.getElem?_eq_getElem (by simpa using hjlt),
        List.getElem_replicate]
    simp only [List.replicate_succ, lognorm_loop, hg]
    rw [ih (j + 1) n (by omega)]

/-- C4: A successful `lognorm` pass replaces the value `x` at every cell
position `j < ncells` with `log2(x / sizeFactor[j] + pseudocount)`, pairing
size factors to cells by position; and for a row of all-equal values `x` with
uniform size factor `s` and pseudocount `p`, every transformed cell equals
`log2(x / s + p)` exactly. -/
theorem C4_lognorm_values (sf : List ℝ) (ps : ℝ) (buf out : List ℝ)
    (hlen : buf.length ≤ sf.length)
    (hout : lognorm_loop sf ps buf 0 = some out) :
    (∀ j < buf.length, out.getD j 0 = Real.logb 2 (buf.getD j 0 / sf.getD j 0 + ps)) ∧
    (∀ (n : ℕ) (x s p : ℝ),
      lognorm_loop (List.replicate n s) p (List.replicate n x) 0 =
        some (List.replicate n (Real.logb 2 (x / s + p)))) := by
  constructor
  · intro j hj
    rw [lognorm_loop_eq sf ps buf 0 (by omega), Option.some_inj] at hout
    rw [← hout, getD_of_lt _ _ _ (by simpa using hj), List.getElem_map,
      List.getElem_range, Nat.zero_add, Real.log_div_log]
  · intro n x s p
    rw [lognorm_loop_replicate s p x n 0 n (by omega), Real.log_div_log]

/-- A concrete fitter for the closed examples: a factorization over two cells
with one coefficient, with the identity map standing in for the orthogonal
transform. -/
def fit_ex : linear_model_fit := ⟨2, 1, fun b => b⟩

/-- The concrete 1-by-2 example matrix rows all have length 2. -/
lemma rows_ex_len : ∀ r ∈ [[(1 : ℝ), 3]], r.length = 2 := by
  intro r h
  rw [List.mem_singleton] at h
  subst h
  rfl

/-- Concrete evaluation of the driver on the example: mean `(1+3)/2 = 2`,
residual sum of squares `3 * 3 = 9`, variance `9 / (2 - 1) = 9`. -/
lemma eval_ex :
    compute_residual_stats fit_ex 2 [[(1 : ℝ), 3]] (fun b => b) = Except.ok ([2], [9]) := by
  rw [compute_residual_stats, if_pos ⟨rfl, by decide⟩]
  simp [stats_loop, fit_ex]
  norm_num

/-- Closed instance of C1 on the example: variance `9` equals the residual
sum of squares over positions `1..1` divided by `2 - 1`. -/
theorem C1_residual_variance_witness :
    ([(9 : ℝ)]).getD 0 0 =
      (∑ j ∈ Finset.Ico fit_ex.ncoefs 2,
        (fit_ex.multiply ((fun b => b) (([[(1 : ℝ), 3]]).getD 0 []))).getD j 0 ^ 2) /
        ((2 - fit_ex.ncoefs : ℕ) : ℝ) :=
  C1_residual_variance fit_ex 2 [[(1 : ℝ), 3]] (fun b => b) [2] [9] 0
    (fun _ => rfl) (fun _ => rfl) rows_ex_len (by decide) (by decide) eval_ex

/-- Closed instance of C2 on the example: mean `2` equals the transformed row
sum `1 + 3` divided by `ncells = 2`. -/
theorem C2_transformed_mean_witness :
    ([(2 : ℝ)]).getD 0 0 = ((fun b => b) (([[(1 : ℝ), 3]]).getD 0 [])).sum / ((2 : ℕ) : ℝ) :=
  C2_transformed_mean fit_ex 2 [[(1 : ℝ), 3]] (fun b => b) [2] [9] 0
    (fun _ => rfl) (fun _ => rfl) rows_ex_len (by decide) eval_ex

/-- Closed instance of C9 on the example matrix. -/
theorem C9_output_shape_witness :
    compute_residual_stats fit_ex 2 [[(1 : ℝ), 3]] (fun b => b) =
      Except.ok (([[(1 : ℝ), 3]]).map (rowMean 2 (fun b => b)),
        ([[(1 : ℝ), 3]]).map (rowVar 2 fit_ex.ncoefs fit_ex.multiply (fun b => b))) ∧
    (([[(1 : ℝ), 3]]).map (rowMean 2 (fun b => b))).length = ([[(1 : ℝ), 3]]).length ∧
    (([[(1 : ℝ), 3]]).map (rowVar 2 fit_ex.ncoefs fit_ex.multiply (fun b => b))).length =
      ([[(1 : ℝ), 3]]).length :=
  C9_output_shape fit_ex 2 [[(1 : ℝ), 3]] (fun b => b)
    (fun _ => rfl) (fun _ => rfl) rows_ex_len ⟨rfl, by decide⟩

/-- Closed instance of C6: the row loop gives the same output from the
scratch buffer `[5, 7]` as from the zeroed buffer `[0, 0]`. -/
theorem C6_deterministic_witness :
    stats_loop 2 1 (fun b => b) (fun b => b) [[(1 : ℝ), 3]] [(5 : ℝ), 7] =
      stats_loop 2 1 (fun b => b) (fun b => b) [[(1 : ℝ), 3]] [(0 : ℝ), 0] :=
  C6_deterministic 2 1 (fun b => b) (fun b => b) [[(1 : ℝ), 3]] [5, 7] [0, 0]
    (fun _ => rfl) (fun _ => rfl) rows_ex_len rfl rfl

/-- Closed instance of C7: a factorization over 3 cells against a 2-column
matrix aborts with the dimension-mismatch error. -/
theorem C7_dimension_mismatch_witness :
    compute_residual_stats ⟨3, 1, fun b => b⟩ 2 [[(1 : ℝ), 3]] (fun b => b) =
      Except.error "dimension mismatch" :=
  C7_dimension_mismatch ⟨3, 1, fun b => b⟩ 2 [[(1 : ℝ), 3]] (fun b => b)
    (Or.inl (by decide))

/-- Closed instance of C8: the identity transform leaves `[1, 2]` unchanged,
and a successful `lognorm` pass over the one-entry buffer `[4]` keeps the
buffer length `1`. -/
theorem C8_transform_frame_witness :
    none_apply [(1 : ℝ), 2] = [(1 : ℝ), 2] ∧
    ([Real.log ((4 : ℝ) / 2 + 3) / Real.log 2]).length = ([(4 : ℝ)]).length :=
  ⟨C8_transform_frame.1 [(1 : ℝ), 2],
    C8_transform_frame.2 [2] 3 [4] [Real.log ((4 : ℝ) / 2 + 3) / Real.log 2]
      (by simp [lognorm_loop])⟩

/-- Closed instance of C4: the single transformed entry of the buffer `[4]`
with size factor `2` and pseudocount `3` equals `log2(4 / 2 + 3)`. -/
theorem C4_lognorm_values_witness :
    ([Real.log ((4 : ℝ) / 2 + 3) / Real.log 2]).getD 0 0 =
      Real.logb 2 (([(4 : ℝ)]).getD 0 0 / ([(2 : ℝ)]).getD 0 0 + 3) :=
  (C4_lognorm_values [2] 3 [4] [Real.log ((4 : ℝ) / 2 + 3) / Real.log 2]
    (by decide) (by simp [lognorm_loop])).1 0 (by decide)
